import Mathlib

/-!
# Verification of the `wonk` policy engine

A shallow embedding, in Lean 4, of the statement canonicalization, merge,
split, bin-packing and output-writing pipeline of the `wonk` repository
(`wonk/models.py`, `wonk/policy.py`, `wonk/optimizer.py`,
`wonk/constants.py`), together with theorems settling the frozen claims
about it.

Modelling conventions, used throughout:

* Python strings are modelled as `List Char` (`Str`), ordered by the
  lexicographic order on code points — the same order Python's `<` uses
  on `str`.
* `str.casefold` is modelled as per-character lowering (`Char.toLower`),
  and `re.IGNORECASE` matching as comparison of lowered characters.
  This is exact for ASCII, which is the alphabet of AWS action and
  resource names.
* Python `set[str]` arguments are modelled as the list of the set's
  elements in iteration order; theorems quantify over every enumeration
  (adding `Nodup` where set semantics matters), so they hold for every
  set.
* The wildcard regular expression built by `collect_wildcard_matches`
  (`item.replace("*", ".*")`, anchored, IGNORECASE) is modelled by
  `globMatch` on casefolded strings: `'*'` matches any sequence, every
  other character matches itself.  Regex metacharacters other than the
  inserted `.*` are modelled literally.
-/

namespace Wonk

/-- A Python string: a list of characters compared lexicographically. -/
abbrev Str := List Char

/-- Model of `str.casefold`: per-character lowering. -/
def casefold (s : Str) : Str := s.map Char.toLower

/-- Model of Python `sorted` on a list of strings. -/
def pySorted (l : List Str) : List Str := List.insertionSort (· ≤ ·) l

/-- The value of an `Action`/`Resource`-style key: either a bare string or a
list of strings (`Union[str, List[str]]` in `wonk/models.py`). -/
inductive SV where
  | s (v : Str)
  | l (vs : List Str)
deriving DecidableEq, Repr

/-- `wonk/models.py` `deduped_items`: group the items by their casefolded
spelling, order the groups by their casefolded key, and keep the
(case-sensitively) smallest spelling of each group. -/
def deduped_items (items : List Str) : List Str :=
  (pySorted (items.map casefold).dedup).map (fun k =>
    (pySorted (items.filter (fun x => decide (casefold x = k)))).headD [])

/-- Fuelled matcher for `globMatch` below.  Every recursive call strictly
decreases `p.length + s.length`, and the fuel decreases by exactly one per
call, so starting from fuel `p.length + s.length + 1` the `0` case is
never reached. -/
def globMatchF : Nat → Str → Str → Bool
  | 0, _, _ => false
  | _ + 1, [], [] => true
  | _ + 1, [], _ :: _ => false
  | f + 1, '*' :: p, [] => globMatchF f p []
  | f + 1, '*' :: p, a :: s => globMatchF f p (a :: s) || globMatchF f ('*' :: p) s
  | _ + 1, _ :: _, [] => false
  | f + 1, c :: p, a :: s => c == a && globMatchF f p s

/-- Matching of a compiled wildcard pattern (both sides already
casefolded): `'*'` matches any sequence of characters, anything else
matches itself.  Models `re.compile("^" + item.replace("*", ".*") + "$",
re.IGNORECASE).match(...)`. -/
def globMatch (p s : Str) : Bool := globMatchF (p.length + s.length + 1) p s

/-- The `patterns` dict built by `collect_wildcard_matches`, keyed by
`item.casefold()`: modelled by the list of casefolded wildcard items
(items with equal casefold compile to equivalent IGNORECASE patterns, so
only the casefold matters). -/
def wildcard_patterns (items : List Str) : List Str :=
  ((items.filter (fun i => decide ('*' ∈ i))).map casefold).dedup

/-- The keep-test of `collect_wildcard_matches`: an item is kept unless a
pattern of a *different* item (different casefold) matches it. -/
def cwmKeep (patterns : List Str) (item : Str) : Bool :=
  ! patterns.any (fun p => (! (p = casefold item : Bool)) && globMatch p (casefold item))

/-- `wonk/models.py` `collect_wildcard_matches`: a one-element set is
returned as its bare element; otherwise the deduplicated items that are
not shadowed by a *different* item's wildcard pattern are returned as a
list. -/
def collect_wildcard_matches (items : List Str) : SV :=
  if items.length = 1 then .s (items.headD [])
  else .l ((deduped_items items).filter (cwmKeep (wildcard_patterns items)))

/-- `wonk/models.py` `canonicalize_resources`: a literal `"*"` anywhere in
the set short-circuits to `"*"`; otherwise the general reduction runs. -/
def canonicalize_resources (resources : List Str) : SV :=
  if ['*'] ∈ resources then .s ['*']
  else collect_wildcard_matches resources

/-! ### Supporting lemmas about the canonicalizer -/

lemma headD_mem {α : Type _} {l : List α} (h : l ≠ []) (d : α) : l.headD d ∈ l := by
  cases l with
  | nil => exact absurd rfl h
  | cons a t => exact List.mem_cons_self a t

lemma pySorted_perm (l : List Str) : (pySorted l).Perm l :=
  List.perm_insertionSort _ l

lemma pySorted_sorted (l : List Str) : List.Sorted (· ≤ ·) (pySorted l) :=
  List.sorted_insertionSort _ l

lemma mem_pySorted {x : Str} {l : List Str} : x ∈ pySorted l ↔ x ∈ l :=
  (pySorted_perm l).mem_iff

/-- The key list of `deduped_items` is strictly sorted. -/
lemma sortedKeys_sorted_lt (l : List Str) : List.Sorted (· < ·) (pySorted l.dedup) :=
  (pySorted_sorted _).lt_of_le (((pySorted_perm _).nodup_iff).mpr (List.nodup_dedup l))

/-- A group representative picked by `deduped_items` belongs to its group. -/
lemma deduped_group_mem {items : List Str} {k : Str}
    (hk : k ∈ pySorted (items.map casefold).dedup) :
    (pySorted (items.filter (fun y => decide (casefold y = k)))).headD [] ∈
      items.filter (fun y => decide (casefold y = k)) := by
  have hx : ∃ x ∈ items, casefold x = k := by
    have hmem := mem_pySorted.mp hk
    rw [List.mem_dedup, List.mem_map] at hmem
    exact hmem
  obtain ⟨x, hxi, hcf⟩ := hx
  have hne : items.filter (fun y => decide (casefold y = k)) ≠ [] := by
    intro hnil
    have := List.filter_eq_nil_iff.mp hnil x hxi
    simp [hcf] at this
  apply mem_pySorted.mp
  apply headD_mem
  intro hnil
  have hperm := pySorted_perm (items.filter (fun y => decide (casefold y = k)))
  rw [hnil] at hperm
  exact hne hperm.symm.eq_nil

/-- The casefolds of `deduped_items`' output are exactly the sorted key
list. -/
lemma deduped_items_map_casefold (items : List Str) :
    (deduped_items items).map casefold = pySorted (items.map casefold).dedup := by
  unfold deduped_items
  rw [List.map_map]
  have : ∀ k ∈ pySorted (items.map casefold).dedup,
      (casefold ∘ fun j =>
        (pySorted (items.filter (fun x => decide (casefold x = j)))).headD []) k = id k := by
    intro k hk
    have hmem := deduped_group_mem hk
    rw [List.mem_filter] at hmem
    simpa using hmem.2
  rw [List.map_congr_left this, List.map_id]

/-- Every element of `deduped_items items` is an element of `items`. -/
lemma deduped_items_subset {x : Str} {items : List Str}
    (hx : x ∈ deduped_items items) : x ∈ items := by
  unfold deduped_items at hx
  rw [List.mem_map] at hx
  obtain ⟨k, hk, hEq⟩ := hx
  have hmem := deduped_group_mem hk
  rw [List.mem_filter] at hmem
  rw [← hEq]
  exact hmem.1

/-- The list produced by the `.l` branch of `collect_wildcard_matches` is
strictly sorted by casefolded spelling. -/
lemma collect_filter_sorted (items : List Str) :
    List.Sorted (· < ·)
      (((deduped_items items).filter (cwmKeep (wildcard_patterns items))).map casefold) := by
  have hsorted : List.Sorted (· < ·) ((deduped_items items).map casefold) := by
    rw [deduped_items_map_casefold]
    exact sortedKeys_sorted_lt _
  exact List.Pairwise.sublist ((List.filter_sublist _).map casefold) hsorted

/-- **C3** (amended).  The claim said the output list of the reducer is
sorted in *case-sensitive* lexicographic order of the exact spellings; in
fact `deduped_items` orders the groups by their *casefolded* keys, so the
output is strictly sorted by the casefolded spellings (case-insensitive
lexicographic order), which can disagree with the case-sensitive order
(see the counterexample). -/
theorem collect_wildcard_matches_sorted (items : List Str)
    (h : 2 ≤ items.length) :
    ∃ L, collect_wildcard_matches items = SV.l L ∧
      List.Sorted (· < ·) (L.map casefold) := by
  have hne : ¬ items.length = 1 := by omega
  refine ⟨(deduped_items items).filter (cwmKeep (wildcard_patterns items)), ?_, ?_⟩
  · simp [collect_wildcard_matches, hne]
  · exact collect_filter_sorted items

/-- Witness for C3's theorem at a concrete two-element input. -/
theorem collect_wildcard_matches_sorted_witness :
    2 ≤ (["b".data, "a".data] : List Str).length ∧
    ∃ L, collect_wildcard_matches ["b".data, "a".data] = SV.l L ∧
      List.Sorted (· < ·) (L.map casefold) :=
  ⟨by decide, collect_wildcard_matches_sorted ["b".data, "a".data] (by decide)⟩

/-- **C3** counterexample: on the set `{"B", "a"}` the reducer returns
`["a", "B"]` (casefold order), which is *not* sorted in case-sensitive
lexicographic order (`"B" < "a"` by code points). -/
theorem collect_wildcard_matches_not_case_sensitive :
    collect_wildcard_matches ["B".data, "a".data] = SV.l ["a".data, "B".data] ∧
    ¬ List.Sorted (· ≤ ·) (["a".data, "B".data] : List Str) := by decide

/-- **C4** (amended).  The claim said an empty input set is rejected with
an internal invariant violation; in fact neither
`collect_wildcard_matches` nor `canonicalize_resources` performs any such
check: on the empty set both return the empty list normally. -/
theorem canonicalizer_empty_returns_empty_list :
    collect_wildcard_matches [] = SV.l [] ∧
    canonicalize_resources [] = SV.l [] := by decide

/-- **C4** counterexample: `canonicalize_resources` applied to the empty
set returns the value `[]`; no error path exists in the code, refuting
the claim that the call is rejected rather than returning a value. -/
theorem canonicalize_resources_empty_no_error :
    canonicalize_resources [] = SV.l [] := by decide

/-! ### Idempotence of the canonicalizer (claim C2) -/

/-- A list that is already sorted is fixed by `pySorted`. -/
lemma pySorted_eq_self {l : List Str} (h : List.Sorted (· ≤ ·) l) :
    pySorted l = l :=
  List.eq_of_perm_of_sorted (pySorted_perm l) (pySorted_sorted l) h

/-- In a list whose elements have pairwise distinct casefolds, the
casefold-group of a member is exactly that member. -/
lemma filter_casefold_singleton {L : List Str}
    (hp : List.Pairwise (fun a b => casefold a ≠ casefold b) L)
    {x : Str} (hx : x ∈ L) :
    L.filter (fun y => decide (casefold y = casefold x)) = [x] := by
  induction L with
  | nil => cases hx
  | cons a t ih =>
    rw [List.pairwise_cons] at hp
    rcases List.mem_cons.mp hx with hax | hxt
    · subst hax
      rw [List.filter_cons_of_pos (by simp)]
      have hnil : t.filter (fun y => decide (casefold y = casefold x)) = [] := by
        rw [List.filter_eq_nil_iff]
        intro y hy
        simpa using (hp.1 y hy).symm
      rw [hnil]
    · have hne : casefold a ≠ casefold x := hp.1 x hxt
      rw [List.filter_cons_of_neg (by simpa using hne)]
      exact ih hp.2 hxt

/-- A nodup list with strictly casefold-sorted elements is fixed by
`deduped_items`: every casefold group is a singleton and the keys are
already sorted. -/
lemma deduped_items_eq_self {L : List Str}
    (hs : List.Sorted (· < ·) (L.map casefold)) :
    deduped_items L = L := by
  have hpairs : List.Pairwise (fun a b => casefold a < casefold b) L :=
    List.pairwise_map.mp hs
  have hpne : List.Pairwise (fun a b => casefold a ≠ casefold b) L :=
    hpairs.imp (fun h => ne_of_lt h)
  have hnd : (L.map casefold).Nodup := hs.imp (fun h => ne_of_lt h)
  unfold deduped_items
  rw [List.dedup_eq_self.mpr hnd, pySorted_eq_self hs.le_of_lt, List.map_map]
  have : ∀ x ∈ L,
      ((fun k => (pySorted (L.filter (fun y => decide (casefold y = k)))).headD []) ∘
        casefold) x = id x := by
    intro x hx
    simp only [Function.comp, id]
    rw [filter_casefold_singleton hpne hx]
    rfl
  rw [List.map_congr_left this, List.map_id]

/-- Every pattern of a sub-multiset of the items is a pattern of the
items. -/
lemma wildcard_patterns_mono {L items : List Str}
    (hsub : ∀ x ∈ L, x ∈ items) {p : Str}
    (hp : p ∈ wildcard_patterns L) : p ∈ wildcard_patterns items := by
  unfold wildcard_patterns at *
  rw [List.mem_dedup, List.mem_map] at *
  obtain ⟨y, hy, rfl⟩ := hp
  rw [List.mem_filter] at hy
  exact ⟨y, List.mem_filter.mpr ⟨hsub y hy.1, hy.2⟩, rfl⟩

/-- An item kept against a pattern list is kept against any pattern
sublist. -/
lemma cwmKeep_mono {pat1 pat2 : List Str} (hsub : ∀ p ∈ pat2, p ∈ pat1)
    {x : Str} (h : cwmKeep pat1 x = true) : cwmKeep pat2 x = true := by
  unfold cwmKeep at *
  rw [Bool.not_eq_true', List.any_eq_false] at *
  intro p hp
  exact h p (hsub p hp)

/-- **C2** (amended).  The claim said `reduce(reduce(S)) == reduce(S)`
including the string-versus-list shape of the result.  That holds
whenever `reduce(S)` is a bare string (one-element input set) or a list
of length ≠ 1; but when exactly one element survives the reduction of a
multi-element set, the result is a one-element *list*, and re-reducing
its element set returns the element as a *bare string* — the same single
element in a different shape (see the counterexample). -/
theorem collect_wildcard_matches_idempotent (items : List Str) :
    (∀ v, collect_wildcard_matches items = SV.s v →
      collect_wildcard_matches [v] = SV.s v) ∧
    (∀ L, collect_wildcard_matches items = SV.l L → L.length ≠ 1 →
      collect_wildcard_matches L = SV.l L) ∧
    (∀ x, collect_wildcard_matches items = SV.l [x] →
      collect_wildcard_matches [x] = SV.s x) := by
  refine ⟨fun v _ => rfl, ?_, fun x _ => rfl⟩
  intro L hL hlen
  by_cases hone : items.length = 1
  · rw [collect_wildcard_matches, if_pos hone] at hL
    cases hL
  rw [collect_wildcard_matches, if_neg hone] at hL
  obtain rfl : L = (deduped_items items).filter (cwmKeep (wildcard_patterns items)) :=
    (SV.l.injEq _ _ ▸ hL).symm
  set L := (deduped_items items).filter (cwmKeep (wildcard_patterns items)) with hLdef
  have hs : List.Sorted (· < ·) (L.map casefold) := collect_filter_sorted items
  have hmemL : ∀ x ∈ L, x ∈ items := by
    intro x hx
    rw [hLdef, List.mem_filter] at hx
    exact deduped_items_subset hx.1
  have hkeepL : ∀ x ∈ L, cwmKeep (wildcard_patterns items) x = true := by
    intro x hx
    rw [hLdef, List.mem_filter] at hx
    exact hx.2
  rw [collect_wildcard_matches, if_neg hlen, deduped_items_eq_self hs]
  congr 1
  rw [List.filter_eq_self]
  intro x hx
  exact cwmKeep_mono (fun p hp => wildcard_patterns_mono hmemL hp) (hkeepL x hx)

/-- Witness for C2's theorem: a concrete two-element set whose reduction
is a two-element list, reduced again to the same list. -/
theorem collect_wildcard_matches_idempotent_witness :
    collect_wildcard_matches ["a".data, "b".data] = SV.l ["a".data, "b".data] ∧
    collect_wildcard_matches ["a".data, "b".data] ≠ SV.l ["a".data] ∧
    collect_wildcard_matches ["a".data, "b".data] = SV.l ["a".data, "b".data] := by
  refine ⟨by decide, by decide, ?_⟩
  exact (collect_wildcard_matches_idempotent ["a".data, "b".data]).2.1
    ["a".data, "b".data] (by decide) (by decide)

/-- **C2** counterexample: `reduce({"foo*", "FOO*"})` is the one-element
list `["FOO*"]`, but reducing its element set `{"FOO*"}` yields the bare
string `"FOO*"` — a different shape, so `reduce(reduce(S)) ≠ reduce(S)`. -/
theorem collect_wildcard_matches_not_shape_idempotent :
    collect_wildcard_matches ["foo*".data, "FOO*".data] = SV.l ["FOO*".data] ∧
    collect_wildcard_matches ["FOO*".data] = SV.s "FOO*".data ∧
    SV.s "FOO*".data ≠ SV.l ["FOO*".data] := by decide

/-! ### JSON values and `json.dumps` (for `Policy.render`, claim C5)

JSON values are a mutual inductive (`Json` / `JArr` for arrays / `JObj`
for objects) so that the serializer is plain mutual structural recursion,
which the kernel can evaluate. -/

mutual
inductive Json where
  | jnull
  | jbool (b : Bool)
  | jnum (n : Int)
  | jstr (s : Str)
  | jarr (xs : JArr)
  | jobj (kvs : JObj)
inductive JArr where
  | anil
  | acons (hd : Json) (tl : JArr)
inductive JObj where
  | onil
  | ocons (key : Str) (val : Json) (tl : JObj)
end

/-- The characters `{` and `}` (written by code point). -/
def lbrace : Char := Char.ofNat 123

def rbrace : Char := Char.ofNat 125

/-- Lowercase hexadecimal digit, as Python's `\uXXXX` escapes use. -/
def hexDigit (n : Nat) : Char :=
  Char.ofNat (if n < 10 then 48 + n else 87 + n)

/-- A `\uXXXX` escape for a code unit `n < 0x10000`. -/
def uEscape (n : Nat) : Str :=
  ['\\', 'u', hexDigit (n / 4096 % 16), hexDigit (n / 256 % 16),
   hexDigit (n / 16 % 16), hexDigit (n % 16)]

/-- Python `json.dumps` character escaping with the default
`ensure_ascii=True`: printable ASCII passes through, the two-character
escapes are used where available, everything else becomes `\uXXXX`
(a surrogate pair above the BMP). -/
def escapeChar (c : Char) : Str :=
  if c = '"' then ['\\', '"']
  else if c = '\\' then ['\\', '\\']
  else if c = '\n' then ['\\', 'n']
  else if c = '\t' then ['\\', 't']
  else if c = '\r' then ['\\', 'r']
  else if c.toNat = 8 then ['\\', 'b']
  else if c.toNat = 12 then ['\\', 'f']
  else if c.toNat < 32 ∨ 126 < c.toNat then
    (if c.toNat < 65536 then uEscape c.toNat
     else uEscape (55296 + (c.toNat - 65536) / 1024) ++
          uEscape (56320 + (c.toNat - 65536) % 1024))
  else [c]

/-- A JSON string literal: quoted, escaped. -/
def encStr (s : Str) : Str :=
  '"' :: s.foldr (fun c acc => escapeChar c ++ acc) ['"']

/-- Decimal rendering of an integer. -/
def intStr : Int → Str
  | .ofNat m => Nat.toDigits 10 m
  | .negSucc m => '-' :: Nat.toDigits 10 (m + 1)

/-- `indent`-many copies of the indent string. -/
def pad (ind : Str) (lvl : Nat) : Str := (List.replicate lvl ind).flatten

/-- One entry of `JSON_ARGS` (`wonk/constants.py`): the keyword arguments
given to `json.dumps`.  `indent = some ind` models `indent=ind` (with
`json`'s implied item separator `","`); `itemSep`/`kvSep` model the
`separators` pair, defaulted exactly as `json.dumps` defaults them. -/
structure JsonArgs where
  indent : Option Str
  itemSep : Str
  kvSep : Str

/-- Join pre-rendered items with a separator. -/
def joinWith (sep : Str) : List Str → Str
  | [] => []
  | [x] => x
  | x :: y :: t => x ++ sep ++ joinWith sep (y :: t)

/-- Assemble a non-empty array/object body between `opener` and `closer`,
following `json.dumps`: with an indent, every item sits on its own line
at `lvl + 1`, and the closer returns to `lvl`. -/
def wrapItems (args : JsonArgs) (lvl : Nat) (opener closer : Char)
    (items : List Str) : Str :=
  match args.indent with
  | none => opener :: joinWith args.itemSep items ++ [closer]
  | some ind =>
      opener :: (('\n' :: pad ind (lvl + 1)) ++
        joinWith (args.itemSep ++ '\n' :: pad ind (lvl + 1)) items) ++
        ('\n' :: pad ind lvl) ++ [closer]

mutual
/-- The body of Python `json.dumps` for one value at nesting level
`lvl` (key sorting, when requested, is applied as a pre-pass by
`dumps`). -/
def dumpVal (args : JsonArgs) (lvl : Nat) : Json → Str
  | .jnull => "null".data
  | .jbool b => if b then "true".data else "false".data
  | .jnum n => intStr n
  | .jstr s => encStr s
  | .jarr .anil => "[]".data
  | .jarr (.acons x t) =>
      wrapItems args lvl '[' ']' (dumpArrItems args (lvl + 1) (.acons x t))
  | .jobj .onil => [lbrace, rbrace]
  | .jobj (.ocons k v t) =>
      wrapItems args lvl lbrace rbrace (dumpObjItems args (lvl + 1) (.ocons k v t))
def dumpArrItems (args : JsonArgs) (lvl : Nat) : JArr → List Str
  | .anil => []
  | .acons x t => dumpVal args lvl x :: dumpArrItems args lvl t
def dumpObjItems (args : JsonArgs) (lvl : Nat) : JObj → List Str
  | .onil => []
  | .ocons k v t =>
      (encStr k ++ args.kvSep ++ dumpVal args lvl v) :: dumpObjItems args lvl t
end

/-- An object as an association list. -/
def objToList : JObj → List (Str × Json)
  | .onil => []
  | .ocons k v t => (k, v) :: objToList t

/-- Rebuild an object from an association list. -/
def objOfList : List (Str × Json) → JObj
  | [] => .onil
  | (k, v) :: t => .ocons k v (objOfList t)

mutual
/-- Node count of a JSON tree (an executable `sizeOf`). -/
def jsonSize : Json → Nat
  | .jnull => 1
  | .jbool _ => 1
  | .jnum _ => 1
  | .jstr _ => 1
  | .jarr xs => 1 + jarrSize xs
  | .jobj kvs => 1 + jobjSize kvs
def jarrSize : JArr → Nat
  | .anil => 1
  | .acons x t => 1 + jsonSize x + jarrSize t
def jobjSize : JObj → Nat
  | .onil => 1
  | .ocons _ v t => 1 + jsonSize v + jobjSize t
end

mutual
/-- Fuelled recursive key-sorting pass, modelling `sort_keys=True`.
Every recursive call descends to a strict subterm while the fuel drops by
exactly one, so fuel `jsonSize j` (at least the tree depth) is always
sufficient and the `0` case is never reached. -/
def sortKeysF : Nat → Json → Json
  | 0, j => j
  | f + 1, .jarr xs => .jarr (sortArrF f xs)
  | f + 1, .jobj kvs =>
      .jobj (objOfList
        ((List.insertionSort (fun a b => a.1 ≤ b.1) (objToList kvs)).map
          (fun kv => (kv.1, sortKeysF f kv.2))))
  | _ + 1, j => j
/-- Fuelled companion of `sortKeysF` for arrays. -/
def sortArrF : Nat → JArr → JArr
  | 0, xs => xs
  | _ + 1, .anil => .anil
  | f + 1, .acons x t => .acons (sortKeysF f x) (sortArrF f t)
end

/-- Model of `json.dumps(data, sort_keys=sk, **args)`: Python sorts each
object's items by key at serialization time; sorting the tree first and
then serializing is the same function. -/
def dumps (sk : Bool) (args : JsonArgs) (j : Json) : Str :=
  dumpVal args 0 (if sk then sortKeysF (jsonSize j) j else j)

/-- `wonk/constants.py` `JSON_ARGS`: the five formatting styles, from
most to least verbose.  `json.dumps` defaults separators to `(", ", ": ")`
without indent and to `(",", ": ")` with an indent. -/
def JSON_ARGS : List JsonArgs :=
  [⟨some (List.replicate 4 ' '), ",".data, ": ".data⟩,
   ⟨some (List.replicate 2 ' '), ",".data, ": ".data⟩,
   ⟨some ['\t'], ",".data, ": ".data⟩,
   ⟨none, ", ".data, ": ".data⟩,
   ⟨none, ",".data, ":".data⟩]

/-- `wonk/constants.py` `MAX_MANAGED_POLICY_SIZE`. -/
def MAX_MANAGED_POLICY_SIZE : Nat := 6144

namespace Policy

/-- The loop body of `Policy.render` (`wonk/models.py`): try the
remaining formatting styles in order, return the first encoding that
fits, raise `UnshrinkablePolicyError` (modelled as `Except.error ()`)
when none is left. -/
def renderFrom (data : Json) : List JsonArgs → Except Unit Str
  | [] => .error ()
  | args :: rest =>
      let packed := dumps false args data
      if packed.length ≤ MAX_MANAGED_POLICY_SIZE then .ok packed
      else renderFrom data rest

/-- `wonk/models.py` `Policy.render`, applied to the policy's
`as_json()` output `data`: `json.dumps(data, **args)` for each entry of
`JSON_ARGS` in order. -/
def render (data : Json) : Except Unit Str := renderFrom data JSON_ARGS

end Policy

lemma renderFrom_ok_spec (data : Json) :
    ∀ (argsl : List JsonArgs) (s : Str), Policy.renderFrom data argsl = .ok s →
      s.length ≤ MAX_MANAGED_POLICY_SIZE ∧
      ∃ pre args post, argsl = pre ++ args :: post ∧ s = dumps false args data ∧
        ∀ b ∈ pre, MAX_MANAGED_POLICY_SIZE < (dumps false b data).length := by
  intro argsl
  induction argsl with
  | nil => intro s h; cases h
  | cons a rest ih =>
    intro s h
    rw [Policy.renderFrom] at h
    by_cases hfit : (dumps false a data).length ≤ MAX_MANAGED_POLICY_SIZE
    · rw [if_pos hfit] at h
      obtain rfl : dumps false a data = s := by cases h; rfl
      exact ⟨hfit, [], a, rest, rfl, rfl, by intro b hb; cases hb⟩
    · rw [if_neg hfit] at h
      obtain ⟨hlen, pre, args, post, hsplit, hs, hpre⟩ := ih s h
      refine ⟨hlen, a :: pre, args, post, by rw [hsplit]; rfl, hs, ?_⟩
      intro b hb
      rcases List.mem_cons.mp hb with rfl | hb
      · omega
      · exact hpre b hb

lemma renderFrom_error_iff (data : Json) (argsl : List JsonArgs) :
    Policy.renderFrom data argsl = .error () ↔
      ∀ a ∈ argsl, MAX_MANAGED_POLICY_SIZE < (dumps false a data).length := by
  induction argsl with
  | nil => simp [Policy.renderFrom]
  | cons a rest ih =>
    rw [Policy.renderFrom]
    by_cases hfit : (dumps false a data).length ≤ MAX_MANAGED_POLICY_SIZE
    · rw [if_pos hfit]
      constructor
      · intro h; cases h
      · intro h
        have := h a (List.mem_cons_self a rest)
        omega
    · rw [if_neg hfit]
      rw [ih]
      constructor
      · intro h b hb
        rcases List.mem_cons.mp hb with rfl | hb
        · omega
        · exact h b hb
      · intro h b hb
        exact h b (List.mem_cons_of_mem a hb)

/-- **C5** (confirmed).  `Policy.render` tries the five `JSON_ARGS`
styles in their fixed order; whenever it returns a string, that string is
the encoding by the first style that fits (every earlier style exceeds
6144) and its length is at most 6144; and it raises
`UnshrinkablePolicyError` if and only if all five encodings exceed
6144. -/
theorem Policy_render_spec (data : Json) :
    (∀ s, Policy.render data = .ok s →
      s.length ≤ MAX_MANAGED_POLICY_SIZE ∧
      ∃ pre args post, JSON_ARGS = pre ++ args :: post ∧ s = dumps false args data ∧
        ∀ b ∈ pre, MAX_MANAGED_POLICY_SIZE < (dumps false b data).length) ∧
    (Policy.render data = .error () ↔
      ∀ a ∈ JSON_ARGS, MAX_MANAGED_POLICY_SIZE < (dumps false a data).length) :=
  ⟨fun s h => renderFrom_ok_spec data JSON_ARGS s h,
   renderFrom_error_iff data JSON_ARGS⟩

/-- Witness for C5 at a concrete document: rendering `null` succeeds with
the first (4-space-indent) style and the result is within the cap. -/
theorem Policy_render_spec_witness :
    Policy.render Json.jnull = Except.ok "null".data ∧
    ("null".data : Str).length ≤ MAX_MANAGED_POLICY_SIZE :=
  ⟨rfl, ((Policy_render_spec Json.jnull).1 "null".data rfl).1⟩

/-! ### The statement model and the splitter (claim C9) -/

/-- Which of `Action` / `NotAction` a statement carries. -/
inductive AKey where
  | action
  | notAction
deriving DecidableEq, Repr

/-- Which of `Resource` / `NotResource` a statement carries. -/
inductive RKey where
  | resource
  | notResource
deriving DecidableEq, Repr

/-- The JSON key spelled by an `AKey`. -/
def AKey.str : AKey → Str
  | .action => "Action".data
  | .notAction => "NotAction".data

/-- The JSON key spelled by an `RKey`. -/
def RKey.str : RKey → Str
  | .resource => "Resource".data
  | .notResource => "NotResource".data

/-- A string-or-list value as a JSON value. -/
def jarrOfStrs : List Str → JArr
  | [] => .anil
  | v :: t => .acons (.jstr v) (jarrOfStrs t)

/-- Embed an `SV` into `Json`. -/
def svJson : SV → Json
  | .s v => .jstr v
  | .l vs => .jarr (jarrOfStrs vs)

/-- `wonk/models.py` `Statement`: a well-formed statement, holding the
fields the source derives from its dict — which action/resource key is
present, the raw action and resource string sets (as list enumerations),
and `rest` (every other key, `Sid` already stripped; its values are
modelled as string-or-list data, which is all the claims inspect). -/
structure Statement where
  action_key : AKey
  action_value : List Str
  resource_key : RKey
  resources : List Str
  rest : List (Str × SV)
deriving DecidableEq

/-- `wonk/models.py` `Statement.resource_value`: the eagerly canonical
resource value. -/
def Statement.resource_value (s : Statement) : SV :=
  canonicalize_resources s.resources

/-- `wonk/models.py` `smallest_json`:
`json.dumps(data, sort_keys=True, **JSON_ARGS[-1])`. -/
def smallest_json (data : Json) : Str :=
  dumps true ⟨none, ",".data, ":".data⟩ data

/-- `wonk/models.py` `Statement.as_json`: `rest` plus the canonicalized
action value under the action key and the canonical resource value under
the resource key (insertion order is irrelevant: `smallest_json` sorts
keys). -/
def Statement.as_json (s : Statement) : Json :=
  .jobj (objOfList
    (s.rest.map (fun kv => (kv.1, svJson kv.2)) ++
     [(s.action_key.str, svJson (collect_wildcard_matches s.action_value)),
      (s.resource_key.str, svJson s.resource_value)]))

/-- `math.ceil(a / b)` for naturals (`b > 0`).  The source computes
`math.ceil(x / (max_statement_size * 0.45))` in floating point; `0.45`
is modelled exactly as `9/20`. -/
def pyCeil (a b : Nat) : Nat := (a + b - 1) / b

/-- Fuelled chunker: `[l[0:cs], l[cs:2*cs], ...]`.  With `cs ≥ 1` every
step removes at least one element, so fuel `l.length` is always enough. -/
def chunksOfF {α : Type _} : Nat → Nat → List α → List (List α)
  | 0, _, _ => []
  | _ + 1, _, [] => []
  | f + 1, cs, x :: t => (x :: t).take cs :: chunksOfF f cs ((x :: t).drop cs)

/-- `for base in range(0, len(l), cs): yield l[base : base + cs]`. -/
def chunksOf {α : Type _} (cs : Nat) (l : List α) : List (List α) :=
  chunksOfF l.length cs l

/-- One fragment yielded by `Statement.split`: the unchanged `rest` and
resource data plus a slice of the actions. -/
structure Fragment where
  rest : List (Str × SV)
  resource_key : RKey
  resource_value : SV
  action_key : AKey
  action_value : SV
deriving DecidableEq

/-- `wonk/models.py` `Statement.split`: compute the chunk count from the
statement's minimal JSON length, then yield consecutive slices of the
canonicalized action value paired with the unchanged resource value and
`rest`.  When the canonicalized actions are a bare string (singleton
set), Python slices the *string*, which the `.s` branch mirrors. -/
def Statement.split (s : Statement) (max_statement_size : Nat) : List Fragment :=
  let chunks := pyCeil (20 * (smallest_json s.as_json).length) (9 * max_statement_size)
  match collect_wildcard_matches s.action_value with
  | .l acts =>
      let chunk_size := pyCeil acts.length chunks
      (chunksOf chunk_size acts).map (fun c =>
        ⟨s.rest, s.resource_key, s.resource_value, s.action_key, SV.l c⟩)
  | .s a =>
      let chunk_size := pyCeil a.length chunks
      (chunksOf chunk_size a).map (fun c =>
        ⟨s.rest, s.resource_key, s.resource_value, s.action_key, SV.s c⟩)

lemma pyCeil_pos {a b : Nat} (ha : 1 ≤ a) (hb : 1 ≤ b) : 1 ≤ pyCeil a b := by
  unfold pyCeil
  rw [Nat.one_le_div_iff (by omega)]
  omega

lemma chunksOfF_flatten {α : Type _} :
    ∀ (f cs : Nat) (l : List α), 1 ≤ cs → l.length ≤ f →
      (chunksOfF f cs l).flatten = l := by
  intro f
  induction f with
  | zero =>
    intro cs l _ hl
    have : l = [] := List.length_eq_zero.mp (by omega)
    subst this
    rfl
  | succ f ih =>
    intro cs l hcs hl
    match l with
    | [] => rfl
    | x :: t =>
      rw [chunksOfF, List.flatten_cons, ih cs ((x :: t).drop cs) hcs (by
        rw [List.length_drop]
        simp only [List.length_cons] at hl ⊢
        omega)]
      exact List.take_append_drop cs (x :: t)

/-- Every serialized statement object is non-empty (it starts with a
brace). -/
lemma smallest_json_obj_pos (kvs : JObj) :
    1 ≤ (smallest_json (Json.jobj kvs)).length := by
  have hsort : ∃ kvs2, sortKeysF (jsonSize (Json.jobj kvs)) (Json.jobj kvs) = Json.jobj kvs2 := by
    rcases hf : jsonSize (Json.jobj kvs) with _ | f
    · exact ⟨kvs, rfl⟩
    · exact ⟨_, rfl⟩
  obtain ⟨kvs2, hkvs2⟩ := hsort
  unfold smallest_json dumps
  rw [if_pos rfl, hkvs2]
  cases kvs2 with
  | onil => decide
  | ocons k v t =>
    rw [dumpVal, wrapItems]
    simp

/-- **C9** (confirmed).  For a statement whose canonicalized action list
has at least two elements, `split` returns exactly the in-order
consecutive slices of that list: the concatenation of the fragments'
action lists is the full canonicalized action list, and every fragment
carries the statement's (canonical) resource value, resource key, action
key and `rest` unchanged. -/
theorem Statement_split_slices (s : Statement) (mss : Nat) (acts : List Str)
    (hacts : collect_wildcard_matches s.action_value = SV.l acts)
    (hlen : 2 ≤ acts.length) (hmss : 1 ≤ mss) :
    ∃ parts : List (List Str),
      s.split mss = parts.map (fun c =>
        Fragment.mk s.rest s.resource_key s.resource_value s.action_key (SV.l c)) ∧
      parts.flatten = acts := by
  have hchunks : 1 ≤ pyCeil (20 * (smallest_json s.as_json).length) (9 * mss) := by
    apply pyCeil_pos
    · have := smallest_json_obj_pos
        (objOfList
          (s.rest.map (fun kv => (kv.1, svJson kv.2)) ++
           [(s.action_key.str, svJson (collect_wildcard_matches s.action_value)),
            (s.resource_key.str, svJson s.resource_value)]))
      unfold Statement.as_json
      omega
    · omega
  have hcs : 1 ≤ pyCeil acts.length
      (pyCeil (20 * (smallest_json s.as_json).length) (9 * mss)) :=
    pyCeil_pos (by omega) hchunks
  refine ⟨chunksOf (pyCeil acts.length
      (pyCeil (20 * (smallest_json s.as_json).length) (9 * mss))) acts, ?_, ?_⟩
  · unfold Statement.split
    rw [hacts]
  · exact chunksOfF_flatten _ _ _ hcs le_rfl

/-- Witness for C9 at a concrete statement with two actions. -/
theorem Statement_split_slices_witness :
    collect_wildcard_matches ["svc:a".data, "svc:b".data] = SV.l ["svc:a".data, "svc:b".data] ∧
    ∃ parts : List (List Str),
      (Statement.mk AKey.action ["svc:a".data, "svc:b".data] RKey.resource ["r".data]
        [("Effect".data, SV.s "Allow".data)]).split 30 =
        parts.map (fun c =>
          Fragment.mk [("Effect".data, SV.s "Allow".data)] RKey.resource
            (SV.s "r".data) AKey.action (SV.l c)) ∧
      parts.flatten = ["svc:a".data, "svc:b".data] := by
  refine ⟨by decide, ?_⟩
  have h := Statement_split_slices
    (Statement.mk AKey.action ["svc:a".data, "svc:b".data] RKey.resource ["r".data]
      [("Effect".data, SV.s "Allow".data)]) 30
    ["svc:a".data, "svc:b".data] (by decide) (by decide) (by decide)
  have hres : (Statement.mk AKey.action ["svc:a".data, "svc:b".data] RKey.resource ["r".data]
      [("Effect".data, SV.s "Allow".data)]).resource_value = SV.s "r".data := by decide
  rw [hres] at h
  exact h

/-! ### The merge engine (claim C1)

`wonk/policy.py`'s `minify`, `grouped_actions` and `grouped_resources`
operate on `InternalStatement` values.  The `InternalStatement` class
itself is not under `src/` (only its callers and tests are), so its value
shape is modelled from the spec; the grouping keys follow
`wonk/models.py` `Statement.grouping_for_actions` /
`grouping_for_resources`, which are in `src/`. -/

/-- Model of Python set union `a | b`, on set-as-list enumerations:
keep `a`'s elements and append the members of `b` not already present.
The result enumerates `set(a) ∪ set(b)`, and it equals `a` as a list
exactly when the union added nothing — the set-equality test the source
performs. -/
def listUnion (a b : List Str) : List Str :=
  a ++ b.filter (fun x => decide (x ∉ a))

/-- `wonk/models.py` `to_set`: a bare string becomes a one-element set,
a list becomes the set of its members. -/
def to_set : SV → List Str
  | .s v => [v]
  | .l vs => vs

/-- Model of `sorted(self.rest.items())`: dict items sorted by key (keys
are unique in a dict, so the tuple comparison never reaches the
values). -/
def sortPairs (l : List (Str × SV)) : List (Str × SV) :=
  List.insertionSort (fun a b => a.1 ≤ b.1) l

/-- Modelled from the spec: the internal statement value built by
`wonk/policy.py` (`InternalStatement`, whose class body is not under
`src/`).  Spec §3: fields `actionKey ∈ {Action, NotAction}`,
`actionValue` (a set of strings, enumerated as a list), `resourceKey`,
`resourceValue` in canonical form (string or sorted list — an `SV`), and
`rest` (every remaining key with `Sid` removed). -/
structure InternalStatement where
  action_key : AKey
  action_value : List Str
  resource_key : RKey
  resource_value : SV
  rest : List (Str × SV)
deriving DecidableEq, Repr

/-- `wonk/models.py` `Statement.grouping_for_actions`: the action key,
the resource key with its value, and the sorted `rest` items.  The
source stringifies this tuple (`str(elems)`); the tuple itself is used
as the grouping key here. -/
def InternalStatement.grouping_for_actions (s : InternalStatement) :
    AKey × (RKey × SV) × List (Str × SV) :=
  (s.action_key, (s.resource_key, s.resource_value), sortPairs s.rest)

/-- `wonk/models.py` `Statement.grouping_for_resources`: the action key
with its sorted value, the resource key, and the sorted `rest` items. -/
def InternalStatement.grouping_for_resources (s : InternalStatement) :
    (AKey × List Str) × RKey × List (Str × SV) :=
  ((s.action_key, pySorted s.action_value), s.resource_key, sortPairs s.rest)

/-- Find a key in an association list modelling a Python dict. -/
def assocFind {κ ν : Type _} [DecidableEq κ] (k : κ) : List (κ × ν) → Option ν
  | [] => none
  | (k2, v) :: t => if k = k2 then some v else assocFind k t

/-- Replace the value at a key, keeping the dict's insertion order. -/
def assocUpdate {κ ν : Type _} [DecidableEq κ] (k : κ) (v : ν) :
    List (κ × ν) → List (κ × ν)
  | [] => []
  | (k2, v2) :: t => if k = k2 then (k2, v) :: t else (k2, v2) :: assocUpdate k v t

/-- One step of `grouped_actions`' loop over the statements: a new
grouping key is inserted; an existing one unions the action sets into the
first member, setting the changed flag only when the union grew. -/
def gaStep (acc : List ((AKey × (RKey × SV) × List (Str × SV)) × InternalStatement) × Bool)
    (st : InternalStatement) :
    List ((AKey × (RKey × SV) × List (Str × SV)) × InternalStatement) × Bool :=
  let g := st.grouping_for_actions
  match assocFind g acc.1 with
  | none => (acc.1 ++ [(g, st)], acc.2)
  | some ex =>
      let nv := listUnion ex.action_value st.action_value
      if nv = ex.action_value then acc
      else (assocUpdate g { ex with action_value := nv } acc.1, true)

/-- `wonk/policy.py` `grouped_actions`: merge the actions of statements
with equal action-grouping keys; return the changed flag and the dict's
values in insertion order. -/
def grouped_actions (statements : List InternalStatement) :
    Bool × List InternalStatement :=
  let out := statements.foldl gaStep ([], false)
  (out.2, out.1.map (fun p => p.2))

/-- One step of `grouped_resources`' loop: an existing key unions the
resource sets and re-canonicalizes, setting the changed flag only when
the canonical value changed. -/
def grStep (acc : List (((AKey × List Str) × RKey × List (Str × SV)) × InternalStatement) × Bool)
    (st : InternalStatement) :
    List (((AKey × List Str) × RKey × List (Str × SV)) × InternalStatement) × Bool :=
  let g := st.grouping_for_resources
  match assocFind g acc.1 with
  | none => (acc.1 ++ [(g, st)], acc.2)
  | some ex =>
      let nv := canonicalize_resources
        (listUnion (to_set ex.resource_value) (to_set st.resource_value))
      if nv = ex.resource_value then acc
      else (assocUpdate g { ex with resource_value := nv } acc.1, true)

/-- `wonk/policy.py` `grouped_resources`. -/
def grouped_resources (statements : List InternalStatement) :
    Bool × List InternalStatement :=
  let out := statements.foldl grStep ([], false)
  (out.2, out.1.map (fun p => p.2))

/-- The `while this_changed` loop of `minify`: `this_changed` starts
`True` and is set to `False` when the action pass or the resource pass of
the current iteration reports no change, so another iteration runs only
when *both* passes changed.  Each changing pass strictly shrinks the
statement list (`grouped_actions_changed_lt` below), so fuel
`length + 1` is never exhausted (`minifyLoop_fuel_irrelevant`). -/
def minifyLoop : Nat → List InternalStatement → List InternalStatement
  | 0, sts => sts
  | fuel + 1, sts =>
      let pa := grouped_actions sts
      let pr := grouped_resources pa.2
      if pa.1 && pr.1 then minifyLoop fuel pr.2 else pr.2

/-- `wonk/policy.py` `minify`, at the statement level (the source first
flattens the input policies' statements into `InternalStatement`s). -/
def minify (statements : List InternalStatement) : List InternalStatement :=
  minifyLoop (statements.length + 1) statements

lemma assocUpdate_length {κ ν : Type _} [DecidableEq κ] (k : κ) (v : ν) :
    ∀ l : List (κ × ν), (assocUpdate k v l).length = l.length := by
  intro l
  induction l with
  | nil => rfl
  | cons p t ih =>
    obtain ⟨k2, v2⟩ := p
    rw [assocUpdate]
    by_cases h : k = k2
    · rw [if_pos h]
      simp
    · rw [if_neg h]
      simpa using ih

lemma gaStep_cases (acc) (st : InternalStatement) :
    ((gaStep acc st).1.length = acc.1.length + 1 ∧ (gaStep acc st).2 = acc.2) ∨
    (gaStep acc st = acc) ∨
    ((gaStep acc st).1.length = acc.1.length ∧ (gaStep acc st).2 = true) := by
  unfold gaStep
  rcases hfind : assocFind st.grouping_for_actions acc.1 with _ | ex
  · left
    simp [hfind]
  · by_cases heq : listUnion ex.action_value st.action_value = ex.action_value
    · right; left
      simp [hfind, heq]
    · right; right
      simp [hfind, heq, assocUpdate_length]

lemma grStep_cases (acc) (st : InternalStatement) :
    ((grStep acc st).1.length = acc.1.length + 1 ∧ (grStep acc st).2 = acc.2) ∨
    (grStep acc st = acc) ∨
    ((grStep acc st).1.length = acc.1.length ∧ (grStep acc st).2 = true) := by
  unfold grStep
  rcases hfind : assocFind st.grouping_for_resources acc.1 with _ | ex
  · left
    simp [hfind]
  · by_cases heq : canonicalize_resources
        (listUnion (to_set ex.resource_value) (to_set st.resource_value)) = ex.resource_value
    · right; left
      simp [hfind, heq]
    · right; right
      simp [hfind, heq, assocUpdate_length]

/-- Fold invariant for both passes: the dict grows by at most one entry
per statement, and if the changed flag ends up set while it started
clear, some statement was absorbed, so the dict is strictly smaller than
the number of statements seen. -/
lemma fold_step_invariant {σ : Type _}
    (step : (List σ × Bool) → InternalStatement → (List σ × Bool))
    (hstep : ∀ acc st,
      ((step acc st).1.length = acc.1.length + 1 ∧ (step acc st).2 = acc.2) ∨
      (step acc st = acc) ∨
      ((step acc st).1.length = acc.1.length ∧ (step acc st).2 = true)) :
    ∀ (sts : List InternalStatement) (acc : List σ × Bool),
      (sts.foldl step acc).1.length ≤ acc.1.length + sts.length ∧
      ((sts.foldl step acc).2 = true →
        acc.2 = true ∨ (sts.foldl step acc).1.length < acc.1.length + sts.length) := by
  intro sts
  induction sts with
  | nil =>
    intro acc
    exact ⟨by simp, fun h => Or.inl h⟩
  | cons st rest ih =>
    intro acc
    rw [List.foldl_cons]
    obtain ⟨ihlen, ihch⟩ := ih (step acc st)
    rcases hstep acc st with ⟨hl, hc⟩ | heq | ⟨hl, hc⟩
    · refine ⟨by rw [hl] at ihlen; simpa [Nat.add_comm, Nat.add_left_comm] using ihlen, ?_⟩
      intro h
      rcases ihch h with h2 | h2
      · rw [hc] at h2
        exact Or.inl h2
      · right
        rw [hl] at h2
        simp only [List.length_cons] at *
        omega
    · rw [heq] at ihlen ihch ⊢
      refine ⟨by simp only [List.length_cons]; omega, ?_⟩
      intro h
      rcases ihch h with h2 | h2
      · exact Or.inl h2
      · right
        simp only [List.length_cons]
        omega
    · refine ⟨by simp only [List.length_cons]; omega, ?_⟩
      intro _
      right
      have := ihlen
      rw [hl] at this
      simp only [List.length_cons]
      omega

/-- A changing action pass strictly shrinks the statement list. -/
lemma grouped_actions_changed_lt (sts : List InternalStatement)
    (h : (grouped_actions sts).1 = true) :
    (grouped_actions sts).2.length < sts.length := by
  have hinv := fold_step_invariant gaStep gaStep_cases sts ([], false)
  rw [grouped_actions] at h ⊢
  simp only [List.length_map]
  rcases hinv.2 h with h2 | h2
  · cases h2
  · simpa using h2

/-- An action pass never grows the statement list. -/
lemma grouped_actions_length_le (sts : List InternalStatement) :
    (grouped_actions sts).2.length ≤ sts.length := by
  have hinv := fold_step_invariant gaStep gaStep_cases sts ([], false)
  rw [grouped_actions]
  simpa using hinv.1

/-- A changing resource pass strictly shrinks the statement list. -/
lemma grouped_resources_changed_lt (sts : List InternalStatement)
    (h : (grouped_resources sts).1 = true) :
    (grouped_resources sts).2.length < sts.length := by
  have hinv := fold_step_invariant grStep grStep_cases sts ([], false)
  rw [grouped_resources] at h ⊢
  simp only [List.length_map]
  rcases hinv.2 h with h2 | h2
  · cases h2
  · simpa using h2

/-- A resource pass never grows the statement list. -/
lemma grouped_resources_length_le (sts : List InternalStatement) :
    (grouped_resources sts).2.length ≤ sts.length := by
  have hinv := fold_step_invariant grStep grStep_cases sts ([], false)
  rw [grouped_resources]
  simpa using hinv.1

/-- The fuel of `minifyLoop` is irrelevant once it exceeds the statement
count: whenever the loop iterates, both passes changed and the list
shrank by at least two, so `length + 1` fuel models the unbounded
`while` loop faithfully. -/
lemma minifyLoop_fuel_irrelevant :
    ∀ (fuel1 fuel2 : Nat) (sts : List InternalStatement),
      sts.length < fuel1 → sts.length < fuel2 →
      minifyLoop fuel1 sts = minifyLoop fuel2 sts := by
  intro fuel1
  induction fuel1 with
  | zero => intro fuel2 sts h1; omega
  | succ f1 ih =>
    intro fuel2 sts h1 h2
    match fuel2, h2 with
    | f2 + 1, h2 =>
      rw [minifyLoop, minifyLoop]
      by_cases hch : (grouped_actions sts).1 = true ∧
          (grouped_resources (grouped_actions sts).2).1 = true
      · have hlt1 := grouped_actions_changed_lt sts hch.1
        have hlt2 := grouped_resources_changed_lt _ hch.2
        simp only [hch.1, hch.2, Bool.and_self, if_true]
        exact ih f2 _ (by omega) (by omega)
      · have hfalse : ((grouped_actions sts).1 &&
            (grouped_resources (grouped_actions sts).2).1) = false := by
          cases ha : (grouped_actions sts).1 with
          | false => simp [ha]
          | true =>
            cases hr : (grouped_resources (grouped_actions sts).2).1 with
            | false => simp [ha, hr]
            | true => exact absurd ⟨ha, hr⟩ hch
        rw [hfalse]
        simp

/-- The three-statement input on which `minify` stops early: two
statements share an action set and can merge resources, a third already
carries the merged resource list under a different action set. -/
def c1sA : InternalStatement :=
  ⟨.action, ["a".data], .resource, .s "r1".data, []⟩

def c1sB : InternalStatement :=
  ⟨.action, ["a".data], .resource, .s "r2".data, []⟩

def c1sC : InternalStatement :=
  ⟨.action, ["b".data], .resource, .l ["r1".data, "r2".data], []⟩

/-- **C1** (code bug).  The claim — and the spec (§4.3, §8) — say the
loop exits only when an action pass *and* a resource pass both report no
change, so `minify`'s output is a fixed point.  The code initializes
`this_changed = True` and sets it to `False` whenever *either* pass of an
iteration reports no change, so it exits after an iteration whose action
pass was quiet even though its resource pass changed resource values.
On `[c1sA, c1sB, c1sC]` the first action pass changes nothing, the
resource pass merges `c1sA`/`c1sB` into `{Action: [a], Resource:
[r1, r2]}`, and the loop stops: one further `grouped_actions` pass
reports a change (it would merge that statement with `c1sC`), and
re-running `minify` on the output shrinks it — the output is not a fixed
point, contradicting `minify`'s own stated purpose of producing the
minimal equivalent set. -/
theorem minify_stops_before_fixed_point :
    (grouped_actions (minify [c1sA, c1sB, c1sC])).1 = true ∧
    minify (minify [c1sA, c1sB, c1sC]) ≠ minify [c1sA, c1sB, c1sC] ∧
    (minify (minify [c1sA, c1sB, c1sC])).length <
      (minify [c1sA, c1sB, c1sC]).length := by decide

/-! ### The bin packer (claim C6)

`wonk/optimizer.py` `pack_statements` builds a 0/1 integer program and
hands it to an external exact solver (`ortools`/SCIP).  The solver is
modelled as an oracle value `sol`: `some (x, y)` is a returned solution
(`x` assigns each item its bin, `y` flags the open bins), `none` is a
non-`OPTIMAL` status.  The theorems take the solver's contract — a
returned solution satisfies the program's constraints, and `none` means
no assignment satisfies them — as hypotheses. -/

/-- The items the result loop places into bin `j`: those `packed[i]` with
`x[i, j] = 1`. -/
def binItems (packed : List Str) (x : List Nat) (j : Nat) : List Str :=
  ((x.zip packed).filter (fun p => decide (p.1 = j))).map Prod.snd

/-- The load of bin `j`: the summed lengths of its items. -/
def binLoad (packed : List Str) (x : List Nat) (j : Nat) : Nat :=
  ((binItems packed x j).map List.length).sum

/-- The objective `sum(y[j])`. -/
def openCount (y : List Bool) : Nat := (y.filter id).length

/-- The integer program's constraints (`wonk/optimizer.py`): every item
sits in exactly one bin (structural: `x` maps each item index to one bin
index below `bins`), and each bin's load is at most `capacity * y[j]`. -/
def IPFeasible (packed : List Str) (cap bins : Nat)
    (x : List Nat) (y : List Bool) : Prop :=
  x.length = packed.length ∧ y.length = bins ∧ (∀ i ∈ x, i < bins) ∧
  ∀ j < bins, binLoad packed x j ≤ (if y.getD j false then cap else 0)

instance (packed : List Str) (cap bins : Nat) (x : List Nat) (y : List Bool) :
    Decidable (IPFeasible packed cap bins x y) := by
  unfold IPFeasible
  infer_instance

/-- The result loop's treatment of bin `j`: skipped unless `y[j] = 1`,
and empty bins are omitted. -/
def packBin (packed : List Str) (x : List Nat) (y : List Bool) (j : Nat) :
    Option (List Str) :=
  if y.getD j false = true then
    (if (binItems packed x j).isEmpty then none else some (binItems packed x j))
  else none

/-- `wonk/optimizer.py` `pack_statements`: raise
`UnpackableStatementsError` (modelled `Except.error ()`) when the solver
status is not `OPTIMAL`; otherwise collect the non-empty open bins in bin
order. -/
def pack_statements (packed : List Str) (cap bins : Nat)
    (sol : Option (List Nat × List Bool)) : Except Unit (List (List Str)) :=
  match sol with
  | none => .error ()
  | some (x, y) => .ok ((List.range bins).filterMap (packBin packed x y))

lemma flatten_filterMap_getD {β : Type _} (f : β → Option (List Str)) :
    ∀ l : List β,
      (l.filterMap f).flatten = (l.map (fun b => (f b).getD [])).flatten := by
  intro l
  induction l with
  | nil => rfl
  | cons b t ih =>
    rw [List.map_cons, List.flatten_cons, ← ih]
    cases hf : f b with
    | none => simp [hf, List.filterMap_cons_none]
    | some bs => simp [hf, List.filterMap_cons_some]

/-- Changing one fiber of a flatten-of-map by consing one element is a
permutation by consing that element. -/
lemma flatten_update_perm {g g' : Nat → List Str} {r : List Nat} (hnd : r.Nodup)
    {j0 : Nat} (hj : j0 ∈ r) {s : Str}
    (hagree : ∀ j ∈ r, j ≠ j0 → g' j = g j) (hj0 : g' j0 = s :: g j0) :
    ((r.map g').flatten).Perm (s :: (r.map g).flatten) := by
  obtain ⟨X, Y, rfl⟩ := List.append_of_mem hj
  obtain ⟨hndX, hndY, hdisj⟩ := List.nodup_append.mp hnd
  have hj0X : j0 ∉ X := fun hmem => hdisj hmem (List.mem_cons_self _ _)
  have hj0Y : j0 ∉ Y := (List.nodup_cons.mp hndY).1
  have hgX : X.map g' = X.map g := by
    apply List.map_congr_left
    intro j hjX
    exact hagree j (List.mem_append_left _ hjX) (fun h => hj0X (h ▸ hjX))
  have hgY : Y.map g' = Y.map g := by
    apply List.map_congr_left
    intro j hjY
    refine hagree j (List.mem_append_right _ (List.mem_cons_of_mem _ hjY)) ?_
    intro h
    exact hj0Y (h ▸ hjY)
  rw [List.map_append, List.map_cons, List.flatten_append, List.flatten_cons,
    hgX, hgY, hj0,
    List.map_append, List.map_cons, List.flatten_append, List.flatten_cons]
  simpa [List.append_assoc, List.cons_append] using
    (@List.perm_middle Str s ((X.map g).flatten) (g j0 ++ (Y.map g).flatten))

/-- Grouping the pairs of a list by their first component and
concatenating the fibers in index order permutes the list of second
components. -/
lemma fibers_flatten_perm :
    ∀ (l : List (Nat × Str)) (b : Nat), (∀ p ∈ l, p.1 < b) →
      (((List.range b).map
        (fun j => (l.filter (fun p => decide (p.1 = j))).map Prod.snd)).flatten).Perm
        (l.map Prod.snd) := by
  intro l
  induction l with
  | nil =>
    intro b _
    simp
  | cons p t ih =>
    intro b hb
    obtain ⟨i, s⟩ := p
    have hi : i ∈ List.range b := List.mem_range.mpr (hb (i, s) (List.mem_cons_self _ _))
    have hagree : ∀ j ∈ List.range b, j ≠ i →
        (((i, s) :: t).filter (fun p => decide (p.1 = j))).map Prod.snd =
        (t.filter (fun p => decide (p.1 = j))).map Prod.snd := by
      intro j _ hji
      rw [List.filter_cons_of_neg (by simpa using fun h => hji h.symm)]
    have hcons : (((i, s) :: t).filter (fun p => decide (p.1 = i))).map Prod.snd =
        s :: (t.filter (fun p => decide (p.1 = i))).map Prod.snd := by
      rw [List.filter_cons_of_pos (by simp)]
      rfl
    have hperm := flatten_update_perm (List.nodup_range b) hi hagree hcons
    refine hperm.trans ?_
    exact ((ih b (fun q hq => hb q (List.mem_cons_of_mem _ hq))).cons s)

/-- **C6** (amended).  The claim said *every* input item occurs in
exactly one returned bin.  A zero-length item can sit, in a feasible
(indeed optimal) solution, in a bin with `y[j] = 0`, and the result loop
skips closed bins, silently dropping the item (see the counterexample).
Amended: when every input item is non-empty, the returned bins'
concatenation is a permutation of the input (each item in exactly one
bin); each returned bin's summed item lengths are at most the capacity;
at most `bins` bins are returned; empty bins are omitted; and the
unpackable error is raised if and only if no assignment satisfies the
program within `bins` bins. -/
theorem pack_statements_spec (packed : List Str) (cap bins : Nat)
    (sol : Option (List Nat × List Bool))
    (hsound : ∀ a, sol = some a → IPFeasible packed cap bins a.1 a.2)
    (hcompl : sol = none → ∀ x y, ¬ IPFeasible packed cap bins x y)
    (hpos : ∀ s ∈ packed, s ≠ []) :
    (∀ out, pack_statements packed cap bins sol = .ok out →
      out.flatten.Perm packed ∧
      (∀ b ∈ out, (b.map List.length).sum ≤ cap) ∧
      out.length ≤ bins ∧ [] ∉ out) ∧
    (pack_statements packed cap bins sol = .error () ↔
      ∀ x y, ¬ IPFeasible packed cap bins x y) := by
  rcases sol with _ | ⟨x, y⟩
  · refine ⟨?_, ?_⟩
    · intro out hout
      cases hout
    · exact ⟨fun _ => hcompl rfl, fun _ => rfl⟩
  obtain ⟨hxlen, _, hxlt, hload⟩ := hsound (x, y) rfl
  refine ⟨?_, ?_⟩
  · intro out hout
    obtain rfl : (List.range bins).filterMap (packBin packed x y) = out := by
      cases hout
      rfl
    have hmem_shape : ∀ b ∈ (List.range bins).filterMap (packBin packed x y),
        ∃ j < bins, y.getD j false = true ∧ (binItems packed x j).isEmpty = false ∧
          b = binItems packed x j := by
      intro b hb
      obtain ⟨j, hjr, hfj⟩ := List.mem_filterMap.mp hb
      rw [packBin] at hfj
      by_cases hyj : y.getD j false = true
      · rw [if_pos hyj] at hfj
        by_cases hempty : (binItems packed x j).isEmpty
        · rw [if_pos hempty] at hfj
          cases hfj
        · rw [if_neg hempty] at hfj
          exact ⟨j, List.mem_range.mp hjr, hyj,
            Bool.not_eq_true _ ▸ hempty, (Option.some.inj hfj).symm⟩
      · rw [if_neg hyj] at hfj
        cases hfj
    refine ⟨?_, ?_, ?_, ?_⟩
    · -- the bins' concatenation is a permutation of the input
      rw [flatten_filterMap_getD]
      have hcongr : (List.range bins).map (fun j => (packBin packed x y j).getD []) =
          (List.range bins).map (fun j => binItems packed x j) := by
        apply List.map_congr_left
        intro j hjr
        have hj : j < bins := List.mem_range.mp hjr
        rw [packBin]
        by_cases hyj : y.getD j false = true
        · rw [if_pos hyj]
          by_cases hempty : (binItems packed x j).isEmpty
          · rw [if_pos hempty]
            exact (List.isEmpty_iff.mp hempty).symm
          · rw [if_neg hempty]
            rfl
        · rw [if_neg hyj]
          have hzero : binLoad packed x j = 0 := by
            have := hload j hj
            rcases hyv : y.getD j false with _ | _
            · rw [hyv] at this
              simpa using this
            · exact absurd hyv hyj
          have : binItems packed x j = [] := by
            rcases hbi : binItems packed x j with _ | ⟨s0, t0⟩
            · rfl
            · exfalso
              have hs0 : s0 ∈ binItems packed x j := by
                rw [hbi]
                exact List.mem_cons_self _ _
              have hs0p : s0 ∈ packed := by
                rw [binItems] at hs0
                obtain ⟨p, hp, rfl⟩ := List.mem_map.mp hs0
                have := (List.mem_filter.mp hp).1
                exact (List.of_mem_zip this).2
              have hs0ne := hpos s0 hs0p
              have : s0.length = 0 := by
                have hsum := hzero
                rw [binLoad, hbi] at hsum
                simp only [List.map_cons, List.sum_cons] at hsum
                omega
              exact hs0ne (List.length_eq_zero.mp this)
          rw [this]
          rfl
      rw [hcongr]
      have hperm := fibers_flatten_perm (x.zip packed) bins (by
        intro p hp
        exact hxlt p.1 (List.of_mem_zip hp).1)
      have hfib : ∀ j, binItems packed x j =
          ((x.zip packed).filter (fun p => decide (p.1 = j))).map Prod.snd := by
        intro j
        rfl
      rw [List.map_snd_zip x packed (le_of_eq hxlen.symm)] at hperm
      exact hperm
    · -- each returned bin fits in the capacity
      intro b hb
      obtain ⟨j, hj, hyj, _, rfl⟩ := hmem_shape b hb
      have := hload j hj
      rw [hyj] at this
      simpa [binLoad] using this
    · -- at most `bins` bins
      calc ((List.range bins).filterMap (packBin packed x y)).length
          ≤ (List.range bins).length := List.length_filterMap_le _ _
        _ = bins := List.length_range bins
    · -- no empty bins
      intro hmem
      obtain ⟨j, _, _, hempty, hnil⟩ := hmem_shape [] hmem
      rw [← hnil] at hempty
      cases hempty
  · constructor
    · intro h
      cases h
    · intro h
      exact absurd (hsound (x, y) rfl) (h x y)

/-- Witness for C6 at a concrete instance: two non-empty items, capacity
2, two bins, and the feasible solution that opens both bins. -/
theorem pack_statements_spec_witness :
    pack_statements ["ab".data, "c".data] 2 2 (some ([0, 1], [true, true])) =
      Except.ok [["ab".data], ["c".data]] ∧
    ([["ab".data], ["c".data]] : List (List Str)).flatten.Perm
      ["ab".data, "c".data] := by
  have h := (pack_statements_spec ["ab".data, "c".data] 2 2 (some ([0, 1], [true, true]))
      (fun a ha => by cases Option.some.inj ha; decide)
      (fun hnone => nomatch hnone)
      (by decide)).1 [["ab".data], ["c".data]] rfl
  exact ⟨rfl, h.1⟩

/-- **C6** counterexample: for the input holding the single *empty*
string, the assignment `x = [0]`, `y = [false, false]` satisfies every
constraint of the integer program and is optimal (its objective, 0, is
the least possible), yet `pack_statements` returns no bins at all: the
empty-string item occurs in no returned bin, refuting "every input item
occurs in exactly one returned bin". -/
theorem pack_statements_drops_empty_item :
    pack_statements [[]] 100 2 (some ([0], [false, false])) = Except.ok [] ∧
    IPFeasible [[]] 100 2 [0] [false, false] ∧
    (∀ x y, IPFeasible [[]] 100 2 x y → openCount [false, false] ≤ openCount y) := by
  refine ⟨rfl, by decide, ?_⟩
  intro x y _
  exact Nat.zero_le _

/-! ### The output synchronizer (claims C7, C8, C10)

`wonk/policy.py` `write_policy_set`, over a file-system model: the
output directory's listing is an association list from file name
(relative to the directory) to content.  The policies to write are
abstracted by their rendered text (`renderP`, modelling
`policy.render()` on policies that render successfully) and the on-disk
equality check (`eqP`, modelling
`policy == Policy.from_dict(json.loads(text))` on files whose content
parses); no conclusion below depends on either.

The source matches candidates with the *unescaped* regular expression
`^{final}_\d+$` against `candidate.stem`; the matcher below models it
for base names free of regex/glob metacharacters (the `plainName`
hypothesis of the frame theorem), with `\d` as the ASCII digits. -/

/-- Fuelled decimal writer (most significant digit first). -/
def natStrAux : Nat → Nat → Str → Str
  | 0, _, acc => acc
  | f + 1, n, acc =>
      let d := Char.ofNat (48 + n % 10)
      if n < 10 then d :: acc else natStrAux f (n / 10) (d :: acc)

/-- Model of Python `str(n)` for a natural number. -/
def natStr (n : Nat) : Str := natStrAux (n + 1) n []

/-- `f"{base_name}_{i}.json"`. -/
def dotJson : Str := ".json".data

def pathName (bn : Str) (i : Nat) : Str := bn ++ '_' :: natStr i ++ dotJson

/-- The run of characters after a name's last dot (reversed). -/
def afterLastDot (name : Str) : Str :=
  name.reverse.takeWhile (fun c => decide (c ≠ '.'))

/-- `pathlib.PurePath.stem`: the name without its final suffix; a name
with no dot, a leading-dot-only name, or a trailing dot has no suffix. -/
def stemOf (name : Str) : Str :=
  if (afterLastDot name).length = name.length then name
  else if (afterLastDot name).length = 0 then name
  else if name.length - (afterLastDot name).length - 1 = 0 then name
  else name.take (name.length - (afterLastDot name).length - 1)

/-- The final path component (`base_name.rsplit("/", maxsplit=1)[-1]`). -/
def finalComponent (s : Str) : Str :=
  (s.reverse.takeWhile (fun c => decide (c ≠ '/'))).reverse

/-- `policy_set_pattern(policy_set).match(stem)` (`wonk/policy.py`), for
a metacharacter-free `final`: the stem is `final`, an underscore, and a
non-empty run of digits. -/
def policy_set_match (final stem : Str) : Bool :=
  decide (stem.take (final.length + 1) = final ++ ['_']) &&
  !(stem.drop (final.length + 1)).isEmpty &&
  (stem.drop (final.length + 1)).all Char.isDigit

/-- `output_dir.glob(f"{base_name}_*")` membership for a
metacharacter-free `base_name`: the name starts with `base_name + "_"`
and the glob star does not cross a path separator. -/
def globCand (bn name : Str) : Bool :=
  decide (name.take (bn.length + 1) = bn ++ ['_']) &&
  (name.drop (bn.length + 1)).all (fun c => decide (c ≠ '/'))

/-- A file name is a deletion candidate when it passes the glob
pre-filter and its stem matches the policy-set pattern. -/
def matchesSetPattern (bn name : Str) : Bool :=
  globCand bn name && policy_set_match (finalComponent bn) (stemOf name)

/-- The `cleanup` set: the pre-existing names matching the pattern. -/
def cleanupCandidates (fs : List (Str × Str)) (bn : Str) : List Str :=
  (fs.map Prod.fst).filter (matchesSetPattern bn)

/-- Directory lookup. -/
def fsLookup (fs : List (Str × Str)) (name : Str) : Option Str :=
  assocFind name fs

/-- `path.write_text(content)`: overwrite or create. -/
def fsWrite (fs : List (Str × Str)) (name content : Str) : List (Str × Str) :=
  if name ∈ fs.map Prod.fst then
    fs.map (fun p => if p.1 = name then (p.1, content) else p)
  else fs ++ [(name, content)]

/-- `old.unlink()` for every name in the list. -/
def fsDelete (fs : List (Str × Str)) (names : List Str) : List (Str × Str) :=
  fs.filter (fun p => decide (p.1 ∉ names))

/-- The write loop of `write_policy_set`: for each policy in order,
record the target path, drop it from the cleanup set, and write the
rendered text unless an existing file is content-equal.  Returns the
recorded paths, the updated directory, and the remaining cleanup set. -/
def writeSetLoop {α : Type _} (renderP : α → Str) (eqP : α → Str → Bool) (bn : Str) :
    List α → Nat → List (Str × Str) → List Str →
      List Str × List (Str × Str) × List Str
  | [], _, fs, cl => ([], fs, cl)
  | p :: ps, i, fs, cl =>
      let path := pathName bn i
      let cl2 := cl.erase path
      let fs2 := match fsLookup fs path with
        | none => fsWrite fs path (renderP p)
        | some c => if eqP p c then fs else fsWrite fs path (renderP p)
      let r := writeSetLoop renderP eqP bn ps (i + 1) fs2 cl2
      (path :: r.1, r.2.1, r.2.2)

/-- `wonk/policy.py` `write_policy_set` as a state transformer on the
directory: compute the cleanup candidates, abort with
`TooManyPoliciesError (base_name, count)` when more than 10 match
(leaving the directory untouched), otherwise run the write loop from
index 1 and finally delete the unvisited candidates. -/
def write_policy_set {α : Type _} (fs : List (Str × Str)) (bn : Str)
    (policies : List α) (renderP : α → Str) (eqP : α → Str → Bool) :
    Except (Str × Nat) (List Str) × List (Str × Str) :=
  let cleanup := cleanupCandidates fs bn
  if 10 < cleanup.length then (.error (bn, cleanup.length), fs)
  else
    let r := writeSetLoop renderP eqP bn policies 1 fs cleanup
    (.ok r.1, fsDelete r.2.1 r.2.2)

/-- **C8** (confirmed).  When more than 10 pre-existing files match the
policy-set pattern, `write_policy_set` raises `TooManyPoliciesError`
carrying the set name and the count, before any write or deletion: the
directory is returned exactly as it was. -/
theorem write_policy_set_too_many {α : Type _} (fs : List (Str × Str)) (bn : Str)
    (policies : List α) (renderP : α → Str) (eqP : α → Str → Bool)
    (h : 10 < (cleanupCandidates fs bn).length) :
    write_policy_set fs bn policies renderP eqP =
      (.error (bn, (cleanupCandidates fs bn).length), fs) := by
  unfold write_policy_set
  rw [if_pos h]

/-- Eleven pre-existing files of the set `foo`. -/
def c8fs : List (Str × Str) :=
  (List.range 11).map (fun k => (pathName "foo".data (k + 1), "x".data))

/-- Witness for C8: with 11 matching files on disk the call errors with
the set name and count 11, and the directory is unchanged. -/
theorem write_policy_set_too_many_witness :
    10 < (cleanupCandidates c8fs "foo".data).length ∧
    write_policy_set c8fs "foo".data ([] : List Unit)
      (fun _ => []) (fun _ _ => true) =
      (.error ("foo".data, (cleanupCandidates c8fs "foo".data).length), c8fs) :=
  ⟨by decide,
   write_policy_set_too_many c8fs "foo".data [] (fun _ => []) (fun _ _ => true)
     (by decide)⟩

lemma writeSetLoop_paths {α : Type _} (renderP : α → Str) (eqP : α → Str → Bool)
    (bn : Str) :
    ∀ (ps : List α) (i : Nat) (fs : List (Str × Str)) (cl : List Str),
      (writeSetLoop renderP eqP bn ps i fs cl).1 =
        (List.range ps.length).map (fun k => pathName bn (i + k)) := by
  intro ps
  induction ps with
  | nil =>
    intro i fs cl
    rfl
  | cons p t ih =>
    intro i fs cl
    rw [writeSetLoop]
    simp only [List.length_cons, List.range_succ_eq_map, List.map_cons, List.map_map]
    rw [ih]
    refine congrArg₂ _ (by rw [Nat.add_zero]) ?_
    apply List.map_congr_left
    intro k _
    simp only [Function.comp]
    exact congrArg (pathName bn) (by omega)

/-- **C10** (confirmed).  Every successful `write_policy_set` call
returns exactly one path per input document, `{baseName}_{i}.json` for
`i = 1..N` in document order — regardless of the equality check `eqP`,
so documents skipped because the on-disk file was content-equal are
reported exactly like freshly written ones. -/
theorem write_policy_set_returns_all_paths {α : Type _} (fs : List (Str × Str))
    (bn : Str) (policies : List α) (renderP : α → Str) (eqP : α → Str → Bool)
    (h : ¬ 10 < (cleanupCandidates fs bn).length) :
    (write_policy_set fs bn policies renderP eqP).1 =
      .ok ((List.range policies.length).map (fun k => pathName bn (1 + k))) := by
  unfold write_policy_set
  rw [if_neg h]
  simp only []
  rw [writeSetLoop_paths]

/-- Witness for C10, exercising the skip branch: one document, an
on-disk file at `foo_1.json` that the equality check reports identical;
the path is reported anyway and the directory is untouched. -/
theorem write_policy_set_returns_all_paths_witness :
    (write_policy_set [(pathName "foo".data 1, "X".data)] "foo".data [()]
        (fun _ => "new".data) (fun _ _ => true)).1 =
      .ok [pathName "foo".data 1] ∧
    (write_policy_set [(pathName "foo".data 1, "X".data)] "foo".data [()]
        (fun _ => "new".data) (fun _ _ => true)).2 =
      [(pathName "foo".data 1, "X".data)] := by
  constructor
  · have h := write_policy_set_returns_all_paths
      [(pathName "foo".data 1, "X".data)] "foo".data [()]
      (fun _ => "new".data) (fun _ _ => true) (by decide)
    simpa using h
  · decide

/-! Frame lemmas for `write_policy_set` (claim C7). -/

lemma assocFind_map_replace {path content name : Str}
    (h : name ≠ path) :
    ∀ fs : List (Str × Str),
      assocFind name (fs.map (fun p => if p.1 = path then (p.1, content) else p)) =
        assocFind name fs := by
  intro fs
  induction fs with
  | nil => rfl
  | cons q t ih =>
    obtain ⟨k, v⟩ := q
    by_cases hkp : k = path
    · subst hkp
      simp only [List.map_cons, if_true]
      rw [assocFind, assocFind, if_neg h, if_neg h]
      exact ih
    · simp only [List.map_cons, if_neg hkp]
      rw [assocFind, assocFind]
      by_cases hnk : name = k
      · rw [if_pos hnk, if_pos hnk]
      · rw [if_neg hnk, if_neg hnk]
        exact ih

lemma assocFind_append_single {path content name : Str} (h : name ≠ path) :
    ∀ fs : List (Str × Str),
      assocFind name (fs ++ [(path, content)]) = assocFind name fs := by
  intro fs
  induction fs with
  | nil =>
    simp [assocFind, h]
  | cons q t ih =>
    obtain ⟨k, v⟩ := q
    rw [List.cons_append]
    rw [show assocFind name ((k, v) :: (t ++ [(path, content)])) =
      if name = k then some v else assocFind name (t ++ [(path, content)]) from rfl]
    rw [show assocFind name ((k, v) :: t) =
      if name = k then some v else assocFind name t from rfl]
    by_cases hnk : name = k
    · rw [if_pos hnk, if_pos hnk]
    · rw [if_neg hnk, if_neg hnk]
      exact ih

lemma fsLookup_fsWrite_ne {fs : List (Str × Str)} {path content name : Str}
    (h : name ≠ path) :
    fsLookup (fsWrite fs path content) name = fsLookup fs name := by
  unfold fsLookup fsWrite
  by_cases hmem : path ∈ fs.map Prod.fst
  · rw [if_pos hmem]
    exact assocFind_map_replace h fs
  · rw [if_neg hmem]
    exact assocFind_append_single h fs

lemma fsLookup_fsDelete_not_mem {fs : List (Str × Str)} {names : List Str}
    {name : Str} (h : name ∉ names) :
    fsLookup (fsDelete fs names) name = fsLookup fs name := by
  unfold fsLookup fsDelete
  induction fs with
  | nil => rfl
  | cons q t ih =>
    obtain ⟨k, v⟩ := q
    by_cases hk : k ∈ names
    · have hnk : name ≠ k := fun hkk => h (hkk ▸ hk)
      rw [List.filter_cons_of_neg (by simpa using hk), assocFind, if_neg hnk]
      exact ih
    · rw [List.filter_cons_of_pos (by simpa using hk), assocFind, assocFind]
      by_cases hnk : name = k
      · rw [if_pos hnk, if_pos hnk]
      · rw [if_neg hnk, if_neg hnk]
        exact ih

lemma fsLookup_fsDelete_mem {fs : List (Str × Str)} {names : List Str}
    {name : Str} (h : name ∈ names) :
    fsLookup (fsDelete fs names) name = none := by
  unfold fsLookup fsDelete
  induction fs with
  | nil => rfl
  | cons q t ih =>
    obtain ⟨k, v⟩ := q
    by_cases hk : k ∈ names
    · rw [List.filter_cons_of_neg (by simpa using hk)]
      exact ih
    · have hnk : name ≠ k := fun hkk => hk (hkk ▸ h)
      rw [List.filter_cons_of_pos (by simpa using hk), assocFind, if_neg hnk]
      exact ih

lemma writeSetLoop_fs_frame {α : Type _} (renderP : α → Str) (eqP : α → Str → Bool)
    (bn : Str) :
    ∀ (ps : List α) (i : Nat) (fs : List (Str × Str)) (cl : List Str) (name : Str),
      (∀ k, k < ps.length → name ≠ pathName bn (i + k)) →
      fsLookup (writeSetLoop renderP eqP bn ps i fs cl).2.1 name = fsLookup fs name := by
  intro ps
  induction ps with
  | nil =>
    intro i fs cl name _
    rfl
  | cons p t ih =>
    intro i fs cl name hpath
    have h0 : name ≠ pathName bn i := by
      have := hpath 0 (by simp)
      simpa using this
    have hrest : ∀ k, k < t.length → name ≠ pathName bn (i + 1 + k) := by
      intro k hk
      have := hpath (k + 1) (by simpa using Nat.succ_lt_succ hk)
      simpa [Nat.add_assoc, Nat.add_comm 1 k] using this
    rw [writeSetLoop]
    simp only []
    rw [ih (i + 1) _ _ name hrest]
    rcases hfind : fsLookup fs (pathName bn i) with _ | c
    · exact fsLookup_fsWrite_ne h0
    · by_cases heq : eqP p c
      · simp [heq]
      · simp only [heq, if_false, Bool.false_eq_true]
        exact fsLookup_fsWrite_ne h0

lemma writeSetLoop_cl_subset {α : Type _} (renderP : α → Str) (eqP : α → Str → Bool)
    (bn : Str) :
    ∀ (ps : List α) (i : Nat) (fs : List (Str × Str)) (cl : List Str),
      (writeSetLoop renderP eqP bn ps i fs cl).2.2 ⊆ cl := by
  intro ps
  induction ps with
  | nil =>
    intro i fs cl
    exact fun _ h => h
  | cons p t ih =>
    intro i fs cl
    rw [writeSetLoop]
    simp only []
    intro name hname
    exact List.erase_subset _ _ (ih (i + 1) _ _ hname)

lemma writeSetLoop_cl_mem {α : Type _} (renderP : α → Str) (eqP : α → Str → Bool)
    (bn : Str) :
    ∀ (ps : List α) (i : Nat) (fs : List (Str × Str)) (cl : List Str) (name : Str),
      name ∈ cl → (∀ k, k < ps.length → name ≠ pathName bn (i + k)) →
      name ∈ (writeSetLoop renderP eqP bn ps i fs cl).2.2 := by
  intro ps
  induction ps with
  | nil =>
    intro i fs cl name hmem _
    exact hmem
  | cons p t ih =>
    intro i fs cl name hmem hpath
    have h0 : name ≠ pathName bn i := by
      have := hpath 0 (by simp)
      simpa using this
    have hrest : ∀ k, k < t.length → name ≠ pathName bn (i + 1 + k) := by
      intro k hk
      have := hpath (k + 1) (by simpa using Nat.succ_lt_succ hk)
      simpa [Nat.add_assoc, Nat.add_comm 1 k] using this
    rw [writeSetLoop]
    simp only []
    exact ih (i + 1) _ _ name ((List.mem_erase_of_ne h0).mpr hmem) hrest

/-- A character free of path separators and regex/glob metacharacters. -/
def plainChar (c : Char) : Bool :=
  !(c ∈ ['/', '.', '*', '+', '?', '[', ']', '(', ')', lbrace, rbrace,
    '\\', '^', '$', '|'])

/-- A base name on which the source's unescaped regular expression and
glob behave literally. -/
def plainName (s : Str) : Bool := s.all plainChar

lemma plainChar_spec {c : Char} (h : plainChar c = true) : c ≠ '/' ∧ c ≠ '.' := by
  constructor
  · intro hc
    subst hc
    exact absurd h (by decide)
  · intro hc
    subst hc
    exact absurd h (by decide)

lemma digit_ne_slash_dot {c : Char} (h : c.isDigit = true) : c ≠ '/' ∧ c ≠ '.' := by
  constructor
  · intro hc
    subst hc
    exact absurd h (by decide)
  · intro hc
    subst hc
    exact absurd h (by decide)

lemma natStrAux_all_digits :
    ∀ (f n : Nat) (acc : Str), (∀ c ∈ acc, c.isDigit = true) →
      ∀ c ∈ natStrAux f n acc, c.isDigit = true := by
  intro f
  induction f with
  | zero =>
    intro n acc hacc
    exact hacc
  | succ f ih =>
    intro n acc hacc
    have hd : (Char.ofNat (48 + n % 10)).isDigit = true := by
      have hlt : n % 10 < 10 := Nat.mod_lt _ (by omega)
      set k := n % 10 with hk
      interval_cases k <;> decide
    rw [natStrAux]
    by_cases hn : n < 10
    · rw [if_pos hn]
      intro c hc
      rcases List.mem_cons.mp hc with rfl | hc
      · exact hd
      · exact hacc c hc
    · rw [if_neg hn]
      apply ih
      intro c hc
      rcases List.mem_cons.mp hc with rfl | hc
      · exact hd
      · exact hacc c hc

lemma natStr_all_digits (n : Nat) : ∀ c ∈ natStr n, c.isDigit = true :=
  natStrAux_all_digits (n + 1) n [] (by intro c hc; cases hc)

lemma natStrAux_ne_nil :
    ∀ (f n : Nat) (acc : Str), f ≠ 0 ∨ acc ≠ [] → natStrAux f n acc ≠ [] := by
  intro f
  induction f with
  | zero =>
    intro n acc h
    rcases h with h | h
    · exact absurd rfl h
    · exact h
  | succ f ih =>
    intro n acc _
    rw [natStrAux]
    by_cases hn : n < 10
    · rw [if_pos hn]
      exact List.cons_ne_nil _ _
    · rw [if_neg hn]
      apply ih
      right
      exact List.cons_ne_nil _ _

lemma natStr_ne_nil (n : Nat) : natStr n ≠ [] :=
  natStrAux_ne_nil (n + 1) n [] (Or.inl (by omega))

lemma takeWhile_all {p : Char → Bool} :
    ∀ l : Str, (∀ c ∈ l, p c = true) → l.takeWhile p = l := by
  intro l
  induction l with
  | nil => intro _; rfl
  | cons c t ih =>
    intro h
    rw [List.takeWhile_cons, h c (List.mem_cons_self _ _),
      ih (fun d hd => h d (List.mem_cons_of_mem _ hd))]
    simp

lemma finalComponent_eq_self {bn : Str} (h : ∀ c ∈ bn, c ≠ '/') :
    finalComponent bn = bn := by
  unfold finalComponent
  rw [takeWhile_all bn.reverse (by
    intro c hc
    simpa using h c (List.mem_reverse.mp hc))]
  exact List.reverse_reverse bn

lemma take_append_cons (l r : Str) (x : Char) :
    (l ++ x :: r).take (l.length + 1) = l ++ [x] := by
  rw [List.take_append]
  rfl

lemma drop_append_cons (l r : Str) (x : Char) :
    (l ++ x :: r).drop (l.length + 1) = r := by
  rw [List.drop_append]
  rfl

/-- The stem of `front ++ ".json"` is `front` when `front` has no dot
and is non-empty. -/
lemma stemOf_json {front : Str} (hdot : ∀ c ∈ front, c ≠ '.')
    (hlen : 1 ≤ front.length) : stemOf (front ++ dotJson) = front := by
  have hrev : (front ++ dotJson).reverse = 'n' :: 'o' :: 's' :: 'j' :: '.' :: front.reverse := by
    rw [List.reverse_append]
    rfl
  have htail : afterLastDot (front ++ dotJson) = ['n', 'o', 's', 'j'] := by
    unfold afterLastDot
    rw [hrev]
    rfl
  have hlenname : (front ++ dotJson).length = front.length + 5 := by
    rw [List.length_append]
    rfl
  unfold stemOf
  rw [htail, hlenname]
  have h4 : (['n', 'o', 's', 'j'] : Str).length = 4 := rfl
  rw [h4]
  rw [if_neg (by omega), if_neg (by omega), if_neg (by omega)]
  have harith : front.length + 5 - 4 - 1 = front.length := by omega
  rw [harith]
  exact List.take_left front dotJson

/-- Every path `write_policy_set` writes matches the deletion pattern
(the stem is `{bn}_{digits}` and the glob pre-filter passes), for a
metacharacter-free base name. -/
lemma pathName_matches {bn : Str} (hplain : plainName bn = true) (i : Nat) :
    matchesSetPattern bn (pathName bn i) = true := by
  have hbn : ∀ c ∈ bn, c ≠ '/' ∧ c ≠ '.' := by
    intro c hc
    exact plainChar_spec ((List.all_eq_true.mp hplain) c hc)
  have hfront_dot : ∀ c ∈ bn ++ '_' :: natStr i, c ≠ '.' := by
    intro c hc
    rcases List.mem_append.mp hc with hc | hc
    · exact (hbn c hc).2
    · rcases List.mem_cons.mp hc with rfl | hc
      · decide
      · exact (digit_ne_slash_dot (natStr_all_digits i c hc)).2
  have hform : pathName bn i = bn ++ '_' :: (natStr i ++ dotJson) := by
    rw [pathName, List.append_assoc, List.cons_append]
  have hpath2 : pathName bn i = (bn ++ '_' :: natStr i) ++ dotJson := by
    rw [pathName]
  have hstem : stemOf (pathName bn i) = bn ++ '_' :: natStr i := by
    rw [hpath2]
    exact stemOf_json hfront_dot (by
      simp only [List.length_append, List.length_cons]
      omega)
  have hfinal : finalComponent bn = bn :=
    finalComponent_eq_self (fun c hc => (hbn c hc).1)
  unfold matchesSetPattern
  rw [Bool.and_eq_true]
  refine ⟨?_, ?_⟩
  · unfold globCand
    rw [Bool.and_eq_true]
    refine ⟨decide_eq_true ?_, ?_⟩
    · rw [hform]
      exact take_append_cons _ _ _
    · rw [hform, drop_append_cons, List.all_eq_true]
      intro c hc
      rcases List.mem_append.mp hc with hc | hc
      · exact decide_eq_true (digit_ne_slash_dot (natStr_all_digits i c hc)).1
      · have hd : ∀ c ∈ dotJson, c ≠ '/' := by decide
        exact decide_eq_true (hd c hc)
  · unfold policy_set_match
    rw [hfinal, hstem, Bool.and_eq_true, Bool.and_eq_true]
    refine ⟨⟨decide_eq_true ?_, ?_⟩, ?_⟩
    · exact take_append_cons _ _ _
    · rw [drop_append_cons]
      rcases hn : natStr i with _ | ⟨c, t⟩
      · exact absurd hn (natStr_ne_nil i)
      · rfl
    · rw [drop_append_cons, List.all_eq_true]
      exact natStr_all_digits i

/-- **C7** (amended).  The claim said the deletion candidates are exactly
the names matching `^{escaped final}_\d+\.json$`.  In fact the source
matches its (unescaped) pattern `^{final}_\d+$` against the
*stem* — the name minus whatever its final extension is — so files such
as `foo_1.txt` are candidates too (see the counterexample).  Amended,
for base names free of regex/glob metacharacters: every pre-existing
file whose name does not glob-match `{baseName}_*` with stem
`{final}_<digits>` is left untouched, and every matching file that is
not one of the exact written paths `{baseName}_{i}.json` (i = 1..N) is
deleted. -/
theorem write_policy_set_frame {α : Type _} (fs : List (Str × Str)) (bn : Str)
    (policies : List α) (renderP : α → Str) (eqP : α → Str → Bool)
    (hplain : plainName bn = true)
    (hcount : ¬ 10 < (cleanupCandidates fs bn).length) :
    (∀ name, matchesSetPattern bn name = false →
      fsLookup (write_policy_set fs bn policies renderP eqP).2 name =
        fsLookup fs name) ∧
    (∀ name, name ∈ cleanupCandidates fs bn →
      name ∉ (List.range policies.length).map (fun k => pathName bn (1 + k)) →
      fsLookup (write_policy_set fs bn policies renderP eqP).2 name = none) := by
  unfold write_policy_set
  rw [if_neg hcount]
  simp only []
  constructor
  · intro name hnm
    have hnotpath : ∀ k, k < policies.length → name ≠ pathName bn (1 + k) := by
      intro k _ heq
      have hmatch := pathName_matches hplain (1 + k)
      rw [← heq, hnm] at hmatch
      cases hmatch
    have hncl : name ∉ cleanupCandidates fs bn := by
      intro hmem
      have := (List.mem_filter.mp hmem).2
      rw [hnm] at this
      cases this
    have hncl2 : name ∉
        (writeSetLoop renderP eqP bn policies 1 fs (cleanupCandidates fs bn)).2.2 :=
      fun h => hncl (writeSetLoop_cl_subset renderP eqP bn policies 1 fs _ h)
    rw [fsLookup_fsDelete_not_mem hncl2]
    exact writeSetLoop_fs_frame renderP eqP bn policies 1 fs _ name hnotpath
  · intro name hmem hnpaths
    have hnotpath : ∀ k, k < policies.length → name ≠ pathName bn (1 + k) := by
      intro k hk heq
      exact hnpaths (heq ▸ List.mem_map.mpr ⟨k, List.mem_range.mpr hk, rfl⟩)
    exact fsLookup_fsDelete_mem
      (writeSetLoop_cl_mem renderP eqP bn policies 1 fs _ name hmem hnotpath)

/-- The pattern the original claim asserted (spec §4.8): the whole file
name is the escaped final segment, an underscore, digits, and the
literal `.json` suffix. -/
def claimedDeletionPattern (bn name : Str) : Bool :=
  decide (name.take (bn.length + 1) = bn ++ ['_']) &&
  decide ((name.drop (bn.length + 1)).drop
    ((name.drop (bn.length + 1)).length - 5) = dotJson) &&
  !((name.drop (bn.length + 1)).take
    ((name.drop (bn.length + 1)).length - 5)).isEmpty &&
  ((name.drop (bn.length + 1)).take
    ((name.drop (bn.length + 1)).length - 5)).all Char.isDigit

/-- The two pre-existing files for the C7 counterexample: a `.txt` file
whose stem matches the set pattern, and the set's own first document. -/
def c7fs : List (Str × Str) :=
  [("foo_1.txt".data, "junk".data), ("foo_1.json".data, "old".data)]

/-- **C7** counterexample: `foo_1.txt` does not match the claim's
pattern `^foo_\d+\.json$`, yet writing one document for set `foo`
deletes it — the source matches stems, accepting any extension. -/
theorem write_policy_set_deletes_non_json :
    claimedDeletionPattern "foo".data "foo_1.txt".data = false ∧
    fsLookup c7fs "foo_1.txt".data = some "junk".data ∧
    fsLookup (write_policy_set c7fs "foo".data [()]
      (fun _ => "new".data) (fun _ _ => false)).2 "foo_1.txt".data = none := by
  decide

/-- Witness for C7's amended theorem: writing one document for `foo`
over a directory holding the unrelated `bar.json` and the stale
`foo_3.json` leaves `bar.json` untouched and deletes `foo_3.json`. -/
theorem write_policy_set_frame_witness :
    plainName "foo".data = true ∧
    fsLookup (write_policy_set [("bar.json".data, "b".data), ("foo_3.json".data, "s".data)]
        "foo".data [()] (fun _ => "new".data) (fun _ _ => false)).2 "bar.json".data =
      fsLookup [("bar.json".data, "b".data), ("foo_3.json".data, "s".data)] "bar.json".data ∧
    fsLookup (write_policy_set [("bar.json".data, "b".data), ("foo_3.json".data, "s".data)]
        "foo".data [()] (fun _ => "new".data) (fun _ _ => false)).2 "foo_3.json".data =
      none := by
  refine ⟨by decide, ?_, ?_⟩
  · exact (write_policy_set_frame [("bar.json".data, "b".data), ("foo_3.json".data, "s".data)]
      "foo".data [()] (fun _ => "new".data) (fun _ _ => false) (by decide) (by decide)).1
      "bar.json".data (by decide)
  · exact (write_policy_set_frame [("bar.json".data, "b".data), ("foo_3.json".data, "s".data)]
      "foo".data [()] (fun _ => "new".data) (fun _ _ => false) (by decide) (by decide)).2
      "foo_3.json".data (by decide) (by decide)

end Wonk
